import Mathlib

/-!
Shallow embedding of the `erro-rs` proc-macro crate (src/lib.rs): the
`#[errors(...)]` attribute macro, which synthesizes a combined error enum for
a function and rewrites the function's return type.

Modelling conventions:
* A `syn::Path` is its list of segment identifiers (identity of a
  `SourceErrorRef` is its textual segments, order preserved).
* Character classification and case mapping follow the Rust std / heck 0.3
  behaviour restricted to ASCII (the domain of Rust path identifiers).
* The extractor's `HashMap<Path, Option<Lit>>` (src/lib.rs:112-117) is
  modelled by its canonical content `attr_args_parsed` (first-occurrence key
  order, last value per key, no duplicate keys) together with an explicit
  iteration order: `parse_fn` receives the map as a list `iter`, and theorems
  constrain `iter.Perm (attr_args_parsed args)`, reflecting that a Rust
  `HashMap`'s iteration order is unspecified.  Within one invocation the
  unmodified map is iterated several times (`errors.iter()`, `errors.keys()`)
  in one and the same order, which the single list models.
* `format_ident!` / `proc_macro2::Ident::new` panics on an invalid
  identifier; `parse_fn` therefore returns an `Option`, `none` standing for
  the macro aborting (a panic at expansion time), like the explicit
  `panic!` for non-function items.
-/

namespace ErroRs

/-- `str::replace("Error", "")` from src/lib.rs:162, specialised to its fixed
pattern: remove every (leftmost, non-overlapping) occurrence of `"Error"`. -/
def removeError : List Char → List Char
  | 'E' :: 'r' :: 'r' :: 'o' :: 'r' :: rest => removeError rest
  | c :: rest => c :: removeError rest
  | [] => []

/-- The word-scanner state of heck 0.3's `transform`: case of the last cased
character of the current word. -/
inductive WordMode where
  | boundary
  | lowercase
  | uppercase
deriving DecidableEq

/-- Rust `s.split(|c: char| !c.is_alphanumeric())`: the pieces between
non-alphanumeric characters, empty pieces included (ASCII). -/
def splitOnNonAlnum : List Char → List (List Char)
  | [] => [[]]
  | c :: rest =>
    if c.isAlphanum then
      match splitOnNonAlnum rest with
      | w :: ws => (c :: w) :: ws
      | [] => [[c]]
    else
      [] :: splitOnNonAlnum rest

/-- heck 0.3 `transform`'s inner loop over one alphanumeric piece: split it
into words at lower-to-upper boundaries and before the last upper of an
upper run followed by a lower ("ParseIntError" becomes "Parse","Int","Error").
`acc` is the current word's prefix (the slice from `init` to the cursor). -/
def heckWords : List Char → WordMode → List Char → List (List Char)
  | [], _, _ => []
  | [c], _, acc => [acc ++ [c]]
  | c :: n :: rest, mode, acc =>
    let nextMode := if c.isLower then WordMode.lowercase
      else if c.isUpper then WordMode.uppercase else mode
    if nextMode = WordMode.lowercase ∧ n.isUpper then
      (acc ++ [c]) :: heckWords (n :: rest) WordMode.boundary []
    else if mode = WordMode.uppercase ∧ c.isUpper ∧ n.isLower then
      acc :: heckWords (n :: rest) WordMode.boundary [c]
    else
      heckWords (n :: rest) nextMode (acc ++ [c])

/-- All heck words of all split pieces, in order. -/
def heckAllWords : List (List Char) → List (List Char)
  | [] => []
  | w :: rest => heckWords w WordMode.boundary [] ++ heckAllWords rest

/-- heck 0.3 `capitalize`: first character uppercased, the rest lowercased. -/
def capitalizeWord : List Char → List Char
  | [] => []
  | c :: rest => c.toUpper :: rest.map Char.toLower

/-- heck 0.3 `to_camel_case` (the `CamelCase` trait used at src/lib.rs:162 and
src/lib.rs:154): split into words, capitalize each, concatenate. -/
def toCamelCase (s : String) : String :=
  String.join ((heckAllWords (splitOnNonAlnum s.data)).map
    (fun w => String.mk (capitalizeWord w)))

/-- A `syn::Path` as its ordered segment identifiers. -/
abbrev RustPath := List String

/-- The `syn::Lit` shapes relevant to the extractor: only `Lit::Str` is ever
consumed (src/lib.rs:156); other literal kinds are carried but unused. -/
inductive Lit where
  | str (value : String)
  | int (value : Int)
  | boolean (value : Bool)
deriving DecidableEq

/-- `syn::NestedMeta`, the shape of one attribute argument. -/
inductive NestedMeta where
  | metaPath (path : RustPath)
  | metaNameValue (path : RustPath) (lit : Lit)
  | metaList (path : RustPath) (tokens : String)
  | lit (l : Lit)
deriving DecidableEq

/-- The `filter_map` arm of src/lib.rs:112-117: bare paths and name-value
pairs are kept (any literal), everything else is dropped. -/
def attrFilter : NestedMeta → Option (RustPath × Option Lit)
  | NestedMeta.metaPath p => some (p, none)
  | NestedMeta.metaNameValue p l => some (p, some l)
  | _ => none

/-- Whether the modelled `HashMap` already holds key `k`. -/
def hasKey : List (RustPath × Option Lit) → RustPath → Bool
  | [], _ => false
  | e :: rest, k => e.fst == k || hasKey rest k

/-- One `HashMap::insert`: an existing key has its value replaced in place,
a new key is added. -/
def hmInsert (m : List (RustPath × Option Lit)) (k : RustPath) (v : Option Lit) :
    List (RustPath × Option Lit) :=
  if hasKey m k then m.map (fun e => if e.fst == k then (k, v) else e)
  else m ++ [(k, v)]

/-- `collect::<HashMap<_, _>>()`: fold the filtered arguments into the map.
The resulting list is the map's content in canonical (first-occurrence) key
order; the actual iteration order is any permutation of it. -/
def collectDedup (l : List (RustPath × Option Lit)) : List (RustPath × Option Lit) :=
  l.foldl (fun m e => hmInsert m e.fst e.snd) []

/-- `attr_args_parsed` of src/lib.rs:112-117: the extractor's output map. -/
def attr_args_parsed (attr_args : List NestedMeta) : List (RustPath × Option Lit) :=
  collectDedup (attr_args.filterMap attrFilter)

/-- The derived variant name of src/lib.rs:162: per segment, remove every
occurrence of `"Error"` then camel-case, and concatenate in path order. -/
def default_variant_name (p : RustPath) : String :=
  String.join (p.map (fun seg => toCamelCase (String.mk (removeError seg.data))))

/-- The variant name chosen at src/lib.rs:155-164: a `Lit::Str` alias is used
verbatim, anything else falls back to the derived name. -/
def variant_name : RustPath × Option Lit → String
  | (_, some (Lit.str a)) => a
  | (p, _) => default_variant_name p

/-- ASCII `XID_Start` / leading underscore, as `proc_macro2` validates. -/
def isIdentStart (c : Char) : Bool := c.isAlpha || c == '_'

/-- ASCII `XID_Continue`. -/
def isIdentContinue (c : Char) : Bool := c.isAlphanum || c == '_'

/-- `proc_macro2`'s identifier validation: nonempty, not all digits, a valid
start character followed by continue characters. -/
def validIdent (s : String) : Bool :=
  match s.data with
  | [] => false
  | c :: rest => !(s.data.all Char.isDigit) && isIdentStart c && rest.all isIdentContinue

/-- `format_ident!` / `Ident::new`: the string itself, or `none` for the
panic on an invalid identifier. -/
def format_ident (s : String) : Option String :=
  if validIdent s then some s else none

/-- The `mapM`-like evaluation of the variant-name iterator inside `quote!`:
all names are materialised, and any panicking element aborts the expansion. -/
def mapOptionAll (g : α → Option β) : List α → Option (List β)
  | [] => some []
  | a :: rest =>
    (g a).bind (fun b => (mapOptionAll g rest).bind (fun bs => some (b :: bs)))

/-- A Rust type, as far as the macro manipulates one.  `unit` is the empty
`TypeTuple` the macro builds for `ReturnType::Default`; a declared return
type is carried opaquely as `path`/`verbatim`. -/
inductive RustType where
  | unit
  | path (p : RustPath)
  | result (ok : RustType) (errIdent : String)
  | verbatim (tokens : String)
deriving DecidableEq

/-- `ReturnType::Default` becomes the unit tuple type (src/lib.rs:143-151). -/
def outputType : Option RustType → RustType
  | none => RustType.unit
  | some t => t

/-- The parts of `syn::Signature` the macro reads and re-emits. -/
structure FnSig where
  constness : Bool
  asyncness : Bool
  unsafety : Bool
  abi : Option String
  ident : String
  generics : String
  where_clause : Option String
  inputs : List String
  variadic : Option String
  output : Option RustType
deriving DecidableEq

/-- `syn::ItemFn`: attributes, visibility, signature, body. -/
structure ItemFn where
  attrs : List String
  vis : String
  sig : FnSig
  block : String
deriving DecidableEq

/-- The emitted enum declaration: doc attribute, derive list, visibility,
name, and variants `Name(PayloadPath)` in emission order. -/
structure EnumDef where
  doc : String
  derives : List String
  vis : String
  ident : String
  variants : List (String × RustPath)
deriving DecidableEq

/-- The emitted `Display` impl: one arm per listed variant name, every arm
delegating `write!(f, "{}", e)` to the wrapped payload. -/
structure DisplayImpl where
  target : String
  arms : List String
deriving DecidableEq

/-- One emitted `impl From<source> for target { ... Self::variant(e) }`. -/
structure FromImpl where
  source : RustPath
  target : String
  variant : String
deriving DecidableEq

/-- The re-emitted function item (src/lib.rs:206-208). -/
structure RewrittenFn where
  attrs : List String
  vis : String
  constness : Bool
  asyncness : Bool
  unsafety : Bool
  abi : Option String
  ident : String
  generics : String
  where_clause : Option String
  inputs : List String
  variadic : Option String
  output : RustType
  block : String
deriving DecidableEq

/-- Everything the macro emits (the `quote!` block, src/lib.rs:171-209). -/
structure MacroOutput where
  enumDef : EnumDef
  displayImpl : DisplayImpl
  fromImpls : List FromImpl
  errorImplTarget : String
  func : RewrittenFn
deriving DecidableEq

/-- `parse_fn` of src/lib.rs:127-209.  `errors` is the extractor's map in its
iteration order; `none` models a panic while the `quote!` block materialises
an identifier. -/
def parse_fn (function : ItemFn) (errors : List (RustPath × Option Lit)) :
    Option MacroOutput :=
  match format_ident (toCamelCase function.sig.ident ++ "Error"),
        mapOptionAll (fun e => format_ident (variant_name e)) errors with
  | some error_ident, some error_variants =>
    some {
      enumDef := {
        doc := "The [error](std::error::Error) returned by [`" ++
          function.sig.ident ++ "`]",
        derives := ["Debug"],
        vis := function.vis,
        ident := error_ident,
        variants := error_variants.zip (errors.map Prod.fst) },
      displayImpl := { target := error_ident, arms := error_variants },
      fromImpls := ((errors.map Prod.fst).zip error_variants).map
        (fun pv => { source := pv.fst, target := error_ident, variant := pv.snd }),
      errorImplTarget := error_ident,
      func := {
        attrs := function.attrs,
        vis := function.vis,
        constness := function.sig.constness,
        asyncness := function.sig.asyncness,
        unsafety := function.sig.unsafety,
        abi := function.sig.abi,
        ident := function.sig.ident,
        generics := function.sig.generics,
        where_clause := function.sig.where_clause,
        inputs := function.sig.inputs,
        variadic := function.sig.variadic,
        output := RustType.result (outputType function.sig.output) error_ident,
        block := function.block } }
  | _, _ => none

/-- The item the attribute is attached to. -/
inductive Item where
  | fn (f : ItemFn)
  | notFn (tokens : String)
deriving DecidableEq

/-- The macro entry point `errors` (src/lib.rs:109-125): for a function item
it runs `parse_fn` on the map's iteration order `iter`; for anything else it
panics (src/lib.rs:124), modelled as `none`. -/
def errors (item : Item) (iter : List (RustPath × Option Lit)) : Option MacroOutput :=
  match item with
  | Item.fn function => parse_fn function iter
  | Item.notFn _ => none

/-- The Rust `match` dispatch on a constructor name: index of the first
variant carrying that name, as `Self::Name(e)` selects it. -/
def matchVariant (variants : List (String × RustPath)) (name : String) : Option Nat :=
  match variants with
  | [] => none
  | v :: rest =>
    if v.fst = name then some 0 else (matchVariant rest name).map (· + 1)

/-- Run the emitted `Display` impl on the enum value `Self::(variants[i])(e)`
whose payload formats to `payloadText`: the first arm for that constructor
fires and delegates `write!(f, "{}", e)`. -/
def runDisplay (ed : EnumDef) (d : DisplayImpl) (i : Nat) (payloadText : String) :
    Option String :=
  match ed.variants.get? i with
  | some v => if v.fst ∈ d.arms then some payloadText else none
  | none => none

/-- Run one emitted `From` impl on a source value formatting to
`payloadText`: `Self::variant(e)` builds the value of the named variant. -/
def runFrom (ed : EnumDef) (fi : FromImpl) (payloadText : String) :
    Option (Nat × String) :=
  (matchVariant ed.variants fi.variant).map (fun i => (i, payloadText))

/-- The signature of the doc example `fn read_int(path: impl AsRef<Path>) -> i128`. -/
def sampleSig : FnSig :=
  { constness := false, asyncness := false, unsafety := false, abi := none,
    ident := "read_int", generics := "", where_clause := none,
    inputs := ["path: impl AsRef<Path>"], variadic := none,
    output := some (RustType.path ["i128"]) }

/-- The doc example's function item. -/
def sampleFn : ItemFn :=
  { attrs := [], vis := "", sig := sampleSig, block := "original body" }

/-- The doc example's attribute arguments
`#[errors(std::io::Error, std::num::ParseIntError)]`. -/
def sampleAttr : List NestedMeta :=
  [NestedMeta.metaPath ["std", "io", "Error"],
   NestedMeta.metaPath ["std", "num", "ParseIntError"]]

/-- The extractor's map for `sampleAttr`, in declaration order. -/
def sampleDecl : List (RustPath × Option Lit) :=
  [(["std", "io", "Error"], none), (["std", "num", "ParseIntError"], none)]

/-- What the macro emits for `sampleFn` with `sampleDecl` in that iteration
order (the expansion shown in the crate's own doc comment). -/
def sampleOut : MacroOutput :=
  { enumDef :=
      { doc := "The [error](std::error::Error) returned by [`read_int`]",
        derives := ["Debug"], vis := "", ident := "ReadIntError",
        variants := [("StdIo", ["std", "io", "Error"]),
                     ("StdNumParseInt", ["std", "num", "ParseIntError"])] },
    displayImpl := { target := "ReadIntError", arms := ["StdIo", "StdNumParseInt"] },
    fromImpls :=
      [{ source := ["std", "io", "Error"], target := "ReadIntError", variant := "StdIo" },
       { source := ["std", "num", "ParseIntError"], target := "ReadIntError",
         variant := "StdNumParseInt" }],
    errorImplTarget := "ReadIntError",
    func :=
      { attrs := [], vis := "", constness := false, asyncness := false,
        unsafety := false, abi := none, ident := "read_int", generics := "",
        where_clause := none, inputs := ["path: impl AsRef<Path>"], variadic := none,
        output := RustType.result (RustType.path ["i128"]) "ReadIntError",
        block := "original body" } }

/-- A declaration entry with an explicit alias, `bincode::Error = "Codec"`. -/
def aliasDecl : List (RustPath × Option Lit) :=
  [(["bincode", "Error"], some (Lit.str "Codec"))]

/-- The macro's output for `sampleFn` with `aliasDecl`. -/
def codecOut : MacroOutput :=
  { enumDef :=
      { doc := "The [error](std::error::Error) returned by [`read_int`]",
        derives := ["Debug"], vis := "", ident := "ReadIntError",
        variants := [("Codec", ["bincode", "Error"])] },
    displayImpl := { target := "ReadIntError", arms := ["Codec"] },
    fromImpls :=
      [{ source := ["bincode", "Error"], target := "ReadIntError", variant := "Codec" }],
    errorImplTarget := "ReadIntError",
    func :=
      { attrs := [], vis := "", constness := false, asyncness := false,
        unsafety := false, abi := none, ident := "read_int", generics := "",
        where_clause := none, inputs := ["path: impl AsRef<Path>"], variadic := none,
        output := RustType.result (RustType.path ["i128"]) "ReadIntError",
        block := "original body" } }

/-- Attribute arguments naming `std::io::Error` twice. -/
def attrDup : List NestedMeta :=
  [NestedMeta.metaPath ["std", "io", "Error"],
   NestedMeta.metaPath ["std", "io", "Error"]]

/-- The macro's output for `sampleFn` with the deduplicated map of `attrDup`. -/
def dupOut : MacroOutput :=
  { enumDef :=
      { doc := "The [error](std::error::Error) returned by [`read_int`]",
        derives := ["Debug"], vis := "", ident := "ReadIntError",
        variants := [("StdIo", ["std", "io", "Error"])] },
    displayImpl := { target := "ReadIntError", arms := ["StdIo"] },
    fromImpls :=
      [{ source := ["std", "io", "Error"], target := "ReadIntError", variant := "StdIo" }],
    errorImplTarget := "ReadIntError",
    func :=
      { attrs := [], vis := "", constness := false, asyncness := false,
        unsafety := false, abi := none, ident := "read_int", generics := "",
        where_clause := none, inputs := ["path: impl AsRef<Path>"], variadic := none,
        output := RustType.result (RustType.path ["i128"]) "ReadIntError",
        block := "original body" } }

theorem format_ident_eq_some {s t : String} :
    format_ident s = some t ↔ validIdent s = true ∧ t = s := by
  unfold format_ident
  split
  · next h =>
    constructor
    · intro he
      exact ⟨h, (Option.some.inj he).symm⟩
    · rintro ⟨-, rfl⟩
      rfl
  · next h =>
    constructor
    · intro he
      exact Option.noConfusion he
    · rintro ⟨hv, -⟩
      exact absurd hv h

theorem format_ident_eq_none {s : String} :
    format_ident s = none ↔ validIdent s = false := by
  unfold format_ident
  split <;> simp_all

theorem mapOptionAll_format {α : Type} {g : α → String} :
    ∀ {l : List α} {names : List String},
      mapOptionAll (fun e => format_ident (g e)) l = some names → names = l.map g := by
  intro l
  induction l with
  | nil =>
    intro names h
    simp only [mapOptionAll] at h
    simp [← Option.some.inj h]
  | cons a rest ih =>
    intro names h
    simp only [mapOptionAll] at h
    cases hg : format_ident (g a) with
    | none =>
      rw [hg, Option.none_bind] at h
      exact Option.noConfusion h
    | some b =>
      rw [hg, Option.some_bind] at h
      cases hr : mapOptionAll (fun e => format_ident (g e)) rest with
      | none =>
        rw [hr, Option.none_bind] at h
        exact Option.noConfusion h
      | some bs =>
        rw [hr, Option.some_bind] at h
        obtain ⟨-, hb⟩ := format_ident_eq_some.mp hg
        rw [← Option.some.inj h, hb, ih hr]
        simp

theorem mapOptionAll_eq_none {α β : Type} {g : α → Option β} :
    ∀ {l : List α}, mapOptionAll g l = none ↔ ∃ a ∈ l, g a = none := by
  intro l
  induction l with
  | nil => simp [mapOptionAll]
  | cons a rest ih =>
    simp only [mapOptionAll]
    cases hg : g a with
    | none =>
      rw [Option.none_bind]
      constructor
      · intro _
        exact ⟨a, List.mem_cons_self a rest, hg⟩
      · intro _
        rfl
    | some b =>
      rw [Option.some_bind]
      cases hr : mapOptionAll g rest with
      | none =>
        rw [Option.none_bind]
        constructor
        · intro _
          obtain ⟨x, hx, hgx⟩ := ih.mp hr
          exact ⟨x, List.mem_cons_of_mem _ hx, hgx⟩
        · intro _
          rfl
      | some bs =>
        rw [Option.some_bind]
        constructor
        · intro h
          exact Option.noConfusion h
        · rintro ⟨x, hx, hgx⟩
          rcases List.mem_cons.mp hx with hxa | hxr
          · rw [hxa] at hgx
            rw [hgx] at hg
            exact Option.noConfusion hg
          · have hcontra : mapOptionAll g rest = none := ih.mpr ⟨x, hxr, hgx⟩
            rw [hcontra] at hr
            exact Option.noConfusion hr

theorem zip_map_pair {α β γ : Type} (g : α → β) (k : α → γ) (l : List α) :
    (l.map g).zip (l.map k) = l.map (fun a => (g a, k a)) := by
  induction l with
  | nil => rfl
  | cons a rest ih => simp [ih]

theorem parse_fn_eq {f : ItemFn} {l : List (RustPath × Option Lit)} {out : MacroOutput}
    (h : parse_fn f l = some out) :
    out = {
      enumDef := {
        doc := "The [error](std::error::Error) returned by [`" ++ f.sig.ident ++ "`]",
        derives := ["Debug"],
        vis := f.vis,
        ident := toCamelCase f.sig.ident ++ "Error",
        variants := l.map (fun e => (variant_name e, e.fst)) },
      displayImpl := { target := toCamelCase f.sig.ident ++ "Error",
                       arms := l.map variant_name },
      fromImpls := l.map (fun e => {
        source := e.fst,
        target := toCamelCase f.sig.ident ++ "Error",
        variant := variant_name e }),
      errorImplTarget := toCamelCase f.sig.ident ++ "Error",
      func := {
        attrs := f.attrs,
        vis := f.vis,
        constness := f.sig.constness,
        asyncness := f.sig.asyncness,
        unsafety := f.sig.unsafety,
        abi := f.sig.abi,
        ident := f.sig.ident,
        generics := f.sig.generics,
        where_clause := f.sig.where_clause,
        inputs := f.sig.inputs,
        variadic := f.sig.variadic,
        output := RustType.result (outputType f.sig.output)
          (toCamelCase f.sig.ident ++ "Error"),
        block := f.block } } := by
  unfold parse_fn at h
  cases hA : format_ident (toCamelCase f.sig.ident ++ "Error") with
  | none =>
    rw [hA] at h
    exact Option.noConfusion h
  | some eid =>
    rw [hA] at h
    obtain ⟨-, heid⟩ := format_ident_eq_some.mp hA
    cases hM : mapOptionAll (fun e => format_ident (variant_name e)) l with
    | none =>
      rw [hM] at h
      exact Option.noConfusion h
    | some names =>
      rw [hM] at h
      have hnames : names = l.map variant_name := mapOptionAll_format hM
      rw [← Option.some.inj h, heid, hnames, zip_map_pair, zip_map_pair, List.map_map]
      rfl

theorem parse_fn_variants {f : ItemFn} {l : List (RustPath × Option Lit)}
    {out : MacroOutput} (h : parse_fn f l = some out) :
    out.enumDef.variants = l.map (fun e => (variant_name e, e.fst)) := by
  rw [parse_fn_eq h]

theorem parse_fn_arms {f : ItemFn} {l : List (RustPath × Option Lit)}
    {out : MacroOutput} (h : parse_fn f l = some out) :
    out.displayImpl.arms = l.map variant_name := by
  rw [parse_fn_eq h]

theorem parse_fn_fromImpls {f : ItemFn} {l : List (RustPath × Option Lit)}
    {out : MacroOutput} (h : parse_fn f l = some out) :
    out.fromImpls = l.map (fun e => {
      source := e.fst,
      target := toCamelCase f.sig.ident ++ "Error",
      variant := variant_name e }) := by
  rw [parse_fn_eq h]

theorem map_pair_fst {α β γ : Type} (g : α → β) (k : α → γ) (l : List α) :
    (l.map (fun a => (g a, k a))).map Prod.fst = l.map g := by
  induction l with
  | nil => rfl
  | cons a rest ih => simp [ih]

theorem map_pair_snd {α β γ : Type} (g : α → β) (k : α → γ) (l : List α) :
    (l.map (fun a => (g a, k a))).map Prod.snd = l.map k := by
  induction l with
  | nil => rfl
  | cons a rest ih => simp [ih]

theorem hasKey_iff {m : List (RustPath × Option Lit)} {k : RustPath} :
    hasKey m k = true ↔ k ∈ m.map Prod.fst := by
  induction m with
  | nil => simp [hasKey]
  | cons e rest ih =>
    simp only [hasKey, List.map_cons, List.mem_cons, Bool.or_eq_true, beq_iff_eq, ih]
    constructor
    · rintro (rfl | hr)
      · exact Or.inl rfl
      · exact Or.inr hr
    · rintro (rfl | hr)
      · exact Or.inl rfl
      · exact Or.inr hr

theorem map_fst_update (m : List (RustPath × Option Lit)) (k : RustPath) (v : Option Lit) :
    (m.map (fun e => if e.fst == k then (k, v) else e)).map Prod.fst = m.map Prod.fst := by
  induction m with
  | nil => rfl
  | cons e rest ih =>
    simp only [List.map_cons, ih]
    by_cases hc : e.fst == k
    · rw [if_pos hc]
      have : e.fst = k := beq_iff_eq.mp hc
      simp [this]
    · rw [if_neg hc]

theorem map_fst_hmInsert (m : List (RustPath × Option Lit)) (k : RustPath) (v : Option Lit) :
    (hmInsert m k v).map Prod.fst =
      if hasKey m k then m.map Prod.fst else m.map Prod.fst ++ [k] := by
  unfold hmInsert
  split
  · exact map_fst_update m k v
  · simp

theorem nodup_keys_hmInsert {m : List (RustPath × Option Lit)} (k : RustPath)
    (v : Option Lit) (h : (m.map Prod.fst).Nodup) :
    ((hmInsert m k v).map Prod.fst).Nodup := by
  rw [map_fst_hmInsert]
  split
  · exact h
  · next hk =>
    have hkm : k ∉ m.map Prod.fst := fun hmem =>
      hk (hasKey_iff.mpr hmem)
    rw [List.nodup_append]
    exact ⟨h, List.nodup_singleton k, by
      intro a ha hak
      rw [List.mem_singleton.mp hak] at ha
      exact hkm ha⟩

theorem mem_keys_hmInsert {m : List (RustPath × Option Lit)} {k p : RustPath}
    {v : Option Lit} :
    p ∈ (hmInsert m k v).map Prod.fst ↔ p ∈ m.map Prod.fst ∨ p = k := by
  rw [map_fst_hmInsert]
  split
  · next hk =>
    constructor
    · exact Or.inl
    · rintro (hp | rfl)
      · exact hp
      · exact hasKey_iff.mp hk
  · simp [List.mem_append]

theorem nodup_keys_foldl :
    ∀ (l m : List (RustPath × Option Lit)), (m.map Prod.fst).Nodup →
      ((l.foldl (fun acc e => hmInsert acc e.fst e.snd) m).map Prod.fst).Nodup := by
  intro l
  induction l with
  | nil => intro m h; simpa using h
  | cons e rest ih =>
    intro m h
    exact ih _ (nodup_keys_hmInsert e.fst e.snd h)

theorem mem_keys_foldl :
    ∀ (l m : List (RustPath × Option Lit)) (p : RustPath),
      p ∈ (l.foldl (fun acc e => hmInsert acc e.fst e.snd) m).map Prod.fst ↔
        p ∈ m.map Prod.fst ∨ p ∈ l.map Prod.fst := by
  intro l
  induction l with
  | nil => intro m p; simp
  | cons e rest ih =>
    intro m p
    simp only [List.foldl_cons, ih, mem_keys_hmInsert, List.map_cons, List.mem_cons]
    tauto

theorem collectDedup_keys_nodup (l : List (RustPath × Option Lit)) :
    ((collectDedup l).map Prod.fst).Nodup :=
  nodup_keys_foldl l [] (by simp)

theorem mem_collectDedup_keys (l : List (RustPath × Option Lit)) (p : RustPath) :
    p ∈ (collectDedup l).map Prod.fst ↔ p ∈ l.map Prod.fst := by
  unfold collectDedup
  rw [mem_keys_foldl]
  simp

theorem matchVariant_get (vs : List (String × RustPath)) :
    ∀ (i : Nat) (h : i < vs.length), (vs.map Prod.fst).Nodup →
      matchVariant vs (vs.get ⟨i, h⟩).fst = some i := by
  induction vs with
  | nil =>
    intro i h
    exact absurd h (by simp)
  | cons v rest ih =>
    intro i h hn
    cases i with
    | zero => simp [matchVariant]
    | succ j =>
      have hj : j < rest.length := by simpa using h
      have hmem : (rest.get ⟨j, hj⟩).fst ∈ rest.map Prod.fst :=
        List.mem_map_of_mem Prod.fst (rest.get_mem j hj)
      have hhead : v.fst ∉ rest.map Prod.fst := (List.nodup_cons.mp hn).1
      have hne : ¬ v.fst = (rest.get ⟨j, hj⟩).fst := fun he => hhead (he ▸ hmem)
      have hget : (List.get (v :: rest) ⟨j + 1, h⟩) = rest.get ⟨j, hj⟩ := rfl
      rw [hget]
      unfold matchVariant
      rw [if_neg hne, ih j hj (List.nodup_cons.mp hn).2]
      rfl

theorem sample_parse : parse_fn sampleFn sampleDecl = some sampleOut := by decide

theorem codec_parse : parse_fn sampleFn aliasDecl = some codecOut := by decide

theorem dup_parse :
    parse_fn sampleFn [(["std", "io", "Error"], none)] = some dupOut := by decide

/-- C3: a source-error reference with no explicit alias gets the derived
variant name: each path segment has every occurrence of the substring
`"Error"` removed, is camel-cased, and the results are concatenated in path
order; in particular `std::io::Error` derives `StdIo`, `bincode::Error`
derives `Bincode`, and `std::num::ParseIntError` derives `StdNumParseInt`. -/
theorem c3_derived_naming :
    (∀ (f : ItemFn) (l : List (RustPath × Option Lit)) (out : MacroOutput)
      (i : Nat) (p : RustPath),
      parse_fn f l = some out → l.get? i = some (p, none) →
      out.enumDef.variants.get? i = some (default_variant_name p, p)) ∧
    (∀ p : RustPath, default_variant_name p =
      String.join (p.map (fun seg => toCamelCase (String.mk (removeError seg.data))))) ∧
    default_variant_name ["std", "io", "Error"] = "StdIo" ∧
    default_variant_name ["bincode", "Error"] = "Bincode" ∧
    default_variant_name ["std", "num", "ParseIntError"] = "StdNumParseInt" := by
  refine ⟨?_, fun p => rfl, by decide, by decide, by decide⟩
  intro f l out i p h he
  rw [parse_fn_variants h, List.get?_map, he]
  rfl

/-- C4: a declaration entry carrying a string-literal alias names its variant
with the alias verbatim, whatever the path holds. -/
theorem c4_alias_verbatim (f : ItemFn) (l : List (RustPath × Option Lit))
    (out : MacroOutput) (i : Nat) (p : RustPath) (a : String)
    (h : parse_fn f l = some out) (he : l.get? i = some (p, some (Lit.str a))) :
    out.enumDef.variants.get? i = some (a, p) := by
  rw [parse_fn_variants h, List.get?_map, he]
  rfl

/-- C4 witness: `bincode::Error = "Codec"` yields the variant `Codec`. -/
theorem c4_witness :
    codecOut.enumDef.variants.get? 0 = some ("Codec", ["bincode", "Error"]) :=
  c4_alias_verbatim sampleFn aliasDecl codecOut 0 ["bincode", "Error"] "Codec"
    codec_parse rfl

/-- C5: for every variant, the emitted `Display` impl forwards to the wrapped
payload's own formatting, so the synthesized type formats exactly as its
payload does. -/
theorem c5_display_transparency (f : ItemFn) (l : List (RustPath × Option Lit))
    (out : MacroOutput) (i : Nat) (s : String)
    (h : parse_fn f l = some out) (hi : i < out.enumDef.variants.length) :
    runDisplay out.enumDef out.displayImpl i s = some s := by
  unfold runDisplay
  rw [List.get?_eq_get hi]
  have h1 : out.enumDef.variants.get ⟨i, hi⟩ ∈ out.enumDef.variants :=
    out.enumDef.variants.get_mem i hi
  have h2 : (out.enumDef.variants.get ⟨i, hi⟩).fst ∈ out.enumDef.variants.map Prod.fst :=
    List.mem_map_of_mem Prod.fst h1
  have h3 : out.enumDef.variants.map Prod.fst = out.displayImpl.arms := by
    rw [parse_fn_variants h, parse_fn_arms h, map_pair_fst]
  rw [h3] at h2
  show (if (out.enumDef.variants.get ⟨i, hi⟩).fst ∈ out.displayImpl.arms
    then some s else none) = some s
  rw [if_pos h2]

/-- C5 witness: the second variant of the doc example delegates its text. -/
theorem c5_witness :
    runDisplay sampleOut.enumDef sampleOut.displayImpl 1 "invalid digit found in string" =
      some "invalid digit found in string" :=
  c5_display_transparency sampleFn sampleDecl sampleOut 1
    "invalid digit found in string" sample_parse (by decide)

/-- C8: the rewritten function keeps the original attributes, visibility,
qualifiers, name, generics, where-clause, parameters, variadic marker and
body unchanged; only the return type changes, to a `Result` of the original
return type (the unit type when none was declared) or the synthesized error
type. -/
theorem c8_frame (f : ItemFn) (l : List (RustPath × Option Lit)) (out : MacroOutput)
    (h : parse_fn f l = some out) :
    out.func = {
      attrs := f.attrs, vis := f.vis, constness := f.sig.constness,
      asyncness := f.sig.asyncness, unsafety := f.sig.unsafety, abi := f.sig.abi,
      ident := f.sig.ident, generics := f.sig.generics,
      where_clause := f.sig.where_clause, inputs := f.sig.inputs,
      variadic := f.sig.variadic,
      output := RustType.result (outputType f.sig.output) out.enumDef.ident,
      block := f.block } ∧
    (f.sig.output = none →
      out.func.output = RustType.result RustType.unit out.enumDef.ident) := by
  have he := parse_fn_eq h
  constructor
  · rw [he]
  · intro hnone
    rw [he, hnone]
    rfl

/-- C8 witness: the doc example's rewritten function at its concrete input. -/
theorem c8_witness :
    sampleOut.func = {
      attrs := sampleFn.attrs, vis := sampleFn.vis,
      constness := sampleFn.sig.constness, asyncness := sampleFn.sig.asyncness,
      unsafety := sampleFn.sig.unsafety, abi := sampleFn.sig.abi,
      ident := sampleFn.sig.ident, generics := sampleFn.sig.generics,
      where_clause := sampleFn.sig.where_clause, inputs := sampleFn.sig.inputs,
      variadic := sampleFn.sig.variadic,
      output := RustType.result (outputType sampleFn.sig.output) sampleOut.enumDef.ident,
      block := sampleFn.block } :=
  (c8_frame sampleFn sampleDecl sampleOut sample_parse).1

/-- C10: every successful expansion derives `Debug` on the synthesized enum,
alongside the `Display`, conversion and standard-error impls, all targeting
the same synthesized type. -/
theorem c10_debug_derive (f : ItemFn) (l : List (RustPath × Option Lit))
    (out : MacroOutput) (h : parse_fn f l = some out) :
    out.enumDef.derives = ["Debug"] ∧
    out.displayImpl.target = out.enumDef.ident ∧
    out.errorImplTarget = out.enumDef.ident ∧
    ∀ fi ∈ out.fromImpls, fi.target = out.enumDef.ident := by
  have he := parse_fn_eq h
  refine ⟨by rw [he], by rw [he], by rw [he], ?_⟩
  intro fi hfi
  rw [he] at hfi ⊢
  obtain ⟨e, -, rfl⟩ := List.mem_map.mp hfi
  rfl

/-- C10 witness: the doc example's enum carries the `Debug` derive. -/
theorem c10_witness :
    sampleOut.enumDef.derives = ["Debug"] ∧
    sampleOut.displayImpl.target = sampleOut.enumDef.ident ∧
    sampleOut.errorImplTarget = sampleOut.enumDef.ident ∧
    ∀ fi ∈ sampleOut.fromImpls, fi.target = sampleOut.enumDef.ident :=
  c10_debug_derive sampleFn sampleDecl sampleOut sample_parse

/-- C1 counterexample: the two-entry declaration `a::Error, b::Error` admits
the reversed list as a valid iteration order of the extractor's `HashMap`,
and on it the emitted variants come out as `B, A`, not in declaration order
`A, B`: the `HashMap` (src/lib.rs:112) does not preserve insertion order. -/
theorem c1_counterexample :
    List.Perm [((["b", "Error"] : RustPath), (none : Option Lit)), (["a", "Error"], none)]
      (attr_args_parsed [NestedMeta.metaPath ["a", "Error"],
        NestedMeta.metaPath ["b", "Error"]]) ∧
    (parse_fn sampleFn [(["b", "Error"], none), (["a", "Error"], none)]).map
      (fun o => o.enumDef.variants.map Prod.fst) = some ["B", "A"] ∧
    (attr_args_parsed [NestedMeta.metaPath ["a", "Error"],
      NestedMeta.metaPath ["b", "Error"]]).map variant_name = ["A", "B"] ∧
    (["B", "A"] : List String) ≠ ["A", "B"] := by
  refine ⟨by decide, by decide, by decide, by decide⟩

/-- C1 (amended): for every iteration order of the extractor's map, the
emitted variants are, up to permutation, exactly one `(name, path)` pair per
distinct declared path; the order itself is the map's unspecified iteration
order, not the declaration order. -/
theorem c1_amended (attr_args : List NestedMeta) (f : ItemFn)
    (iter : List (RustPath × Option Lit)) (out : MacroOutput)
    (hiter : iter.Perm (attr_args_parsed attr_args))
    (h : parse_fn f iter = some out) :
    out.enumDef.variants.Perm
      ((attr_args_parsed attr_args).map (fun e => (variant_name e, e.fst))) := by
  rw [parse_fn_variants h]
  exact hiter.map _

/-- C1 witness: the doc example's declaration, iterated in declaration
order. -/
theorem c1_witness :
    sampleOut.enumDef.variants.Perm
      ((attr_args_parsed sampleAttr).map (fun e => (variant_name e, e.fst))) :=
  c1_amended sampleAttr sampleFn sampleDecl sampleOut (by decide) sample_parse

/-- C2 counterexample: naming `std::io::Error` twice yields a one-entry map
and a one-variant enum, not one variant per occurrence: `collect` into the
`HashMap` merges duplicate keys. -/
theorem c2_counterexample :
    attr_args_parsed attrDup = [(["std", "io", "Error"], none)] ∧
    (parse_fn sampleFn [(["std", "io", "Error"], none)]).map
      (fun o => o.enumDef.variants.length) = some 1 ∧
    (1 : Nat) ≠ 2 := by
  refine ⟨by decide, by decide, by decide⟩

/-- C2 (amended): duplicate source references are merged, not duplicated:
the emitted variants carry pairwise distinct payload paths, and a path
appears among them exactly when some kept argument declares it. -/
theorem c2_amended (attr_args : List NestedMeta) (f : ItemFn)
    (iter : List (RustPath × Option Lit)) (out : MacroOutput)
    (hiter : iter.Perm (attr_args_parsed attr_args))
    (h : parse_fn f iter = some out) :
    (out.enumDef.variants.map Prod.snd).Nodup ∧
    ∀ p : RustPath, p ∈ out.enumDef.variants.map Prod.snd ↔
      p ∈ (attr_args.filterMap attrFilter).map Prod.fst := by
  have hsnd : out.enumDef.variants.map Prod.snd = iter.map Prod.fst := by
    rw [parse_fn_variants h, map_pair_snd]
  have hperm : (iter.map Prod.fst).Perm ((attr_args_parsed attr_args).map Prod.fst) :=
    hiter.map Prod.fst
  constructor
  · rw [hsnd]
    exact hperm.nodup_iff.mpr (collectDedup_keys_nodup _)
  · intro p
    rw [hsnd, hperm.mem_iff]
    exact mem_collectDedup_keys _ p

/-- C2 witness: the duplicated declaration's single-variant output. -/
theorem c2_witness :
    (dupOut.enumDef.variants.map Prod.snd).Nodup ∧
    ∀ p : RustPath, p ∈ dupOut.enumDef.variants.map Prod.snd ↔
      p ∈ (attrDup.filterMap attrFilter).map Prod.fst :=
  c2_amended attrDup sampleFn [(["std", "io", "Error"], none)] dupOut
    (by decide) dup_parse

/-- C6: one `From` impl is emitted per variant, in the same order; each impl
converts a bare value of its source path totally (never `none`) and tags it
with exactly the variant of that source, provided the emitted enum is
well-formed (pairwise distinct variant names, which the macro does not
check). -/
theorem c6_conversions (f : ItemFn) (l : List (RustPath × Option Lit))
    (out : MacroOutput) (h : parse_fn f l = some out)
    (hn : (out.enumDef.variants.map Prod.fst).Nodup) :
    out.fromImpls.length = out.enumDef.variants.length ∧
    ∀ (i : Nat) (fi : FromImpl) (v : String × RustPath),
      out.fromImpls.get? i = some fi → out.enumDef.variants.get? i = some v →
      fi.source = v.snd ∧ fi.variant = v.fst ∧
      ∀ s : String, runFrom out.enumDef fi s = some (i, s) := by
  constructor
  · rw [parse_fn_fromImpls h, parse_fn_variants h]
    simp
  · intro i fi v hfi hv
    have hv0 := hv
    rw [parse_fn_fromImpls h, List.get?_map] at hfi
    rw [parse_fn_variants h, List.get?_map] at hv
    cases hle : l.get? i with
    | none =>
      rw [hle] at hfi
      exact Option.noConfusion hfi
    | some e =>
      rw [hle] at hfi hv
      have hfi' : fi = {
        source := e.fst,
        target := toCamelCase f.sig.ident ++ "Error",
        variant := variant_name e } := (Option.some.inj hfi).symm
      have hv' : v = (variant_name e, e.fst) := (Option.some.inj hv).symm
      subst hfi'
      subst hv'
      refine ⟨rfl, rfl, ?_⟩
      intro s
      obtain ⟨hlt, hget⟩ := List.get?_eq_some.mp hv0
      have hm := matchVariant_get out.enumDef.variants i hlt hn
      rw [hget] at hm
      unfold runFrom
      rw [hm]
      rfl

/-- C6 witness: converting an `std::io::Error` value lands in `StdIo`. -/
theorem c6_witness :
    runFrom sampleOut.enumDef
      { source := ["std", "io", "Error"], target := "ReadIntError",
        variant := "StdIo" } "permission denied" = some (0, "permission denied") := by
  have hc := (c6_conversions sampleFn sampleDecl sampleOut sample_parse (by decide)).2
    0 { source := ["std", "io", "Error"], target := "ReadIntError", variant := "StdIo" }
    ("StdIo", ["std", "io", "Error"]) rfl rfl
  exact hc.2.2 "permission denied"

/-- C7 counterexample: a path assigned to a non-string literal
(`some_mod::Error = 3`) is neither a bare path nor a path assigned to a
string literal, yet the extractor keeps it: it contributes an entry (with the
integer literal carried as its value), and that entry gets the derived
variant name. -/
theorem c7_counterexample :
    attrFilter (NestedMeta.metaNameValue ["some_mod", "Error"] (Lit.int 3)) =
      some ((["some_mod", "Error"] : RustPath), some (Lit.int 3)) ∧
    attr_args_parsed [NestedMeta.metaNameValue ["some_mod", "Error"] (Lit.int 3)] =
      [((["some_mod", "Error"] : RustPath), some (Lit.int 3))] ∧
    variant_name ((["some_mod", "Error"] : RustPath), some (Lit.int 3)) = "SomeMod" := by
  refine ⟨rfl, by decide, by decide⟩

/-- C7 (amended): the extractor keeps a bare path as an alias-free entry and
keeps a path assigned to any literal as an entry carrying that literal; it
silently drops only list-shaped meta arguments and bare literals.  A
non-string literal never overrides the name: such entries fall back to the
derived variant name. -/
theorem c7_amended :
    (∀ (p : RustPath) (tokens : String),
      attrFilter (NestedMeta.metaList p tokens) = none) ∧
    (∀ l : Lit, attrFilter (NestedMeta.lit l) = none) ∧
    (∀ p : RustPath, attrFilter (NestedMeta.metaPath p) = some (p, none)) ∧
    (∀ (p : RustPath) (l : Lit),
      attrFilter (NestedMeta.metaNameValue p l) = some (p, some l)) ∧
    (∀ (p : RustPath) (n : Int),
      variant_name (p, some (Lit.int n)) = default_variant_name p) ∧
    (∀ (p : RustPath) (b : Bool),
      variant_name (p, some (Lit.boolean b)) = default_variant_name p) :=
  ⟨fun _ _ => rfl, fun _ => rfl, fun _ => rfl, fun _ _ => rfl,
   fun _ _ => rfl, fun _ _ => rfl⟩

/-- C9 counterexample: the well-formed argument `Error` on a function item
derives the empty variant name, whose identifier creation panics: generation
aborts even though the item is a function, so the non-function case is not
the sole fatal failure. -/
theorem c9_counterexample :
    List.Perm [((["Error"] : RustPath), (none : Option Lit))]
      (attr_args_parsed [NestedMeta.metaPath ["Error"]]) ∧
    errors (Item.fn sampleFn) [(["Error"], none)] = none := by
  refine ⟨by decide, by decide⟩

/-- C9 (amended): a non-function item always aborts generation; a function
item aborts exactly when the enum identifier or some variant identifier is
invalid (for instance an empty derived name or a non-identifier alias); in
particular, an argument list whose entries are all dropped yields a
zero-variant enum and no abort. -/
theorem c9_amended :
    (∀ (tokens : String) (iter : List (RustPath × Option Lit)),
      errors (Item.notFn tokens) iter = none) ∧
    (∀ (f : ItemFn) (iter : List (RustPath × Option Lit)),
      errors (Item.fn f) iter = none ↔
        validIdent (toCamelCase f.sig.ident ++ "Error") = false ∨
        ∃ e ∈ iter, validIdent (variant_name e) = false) ∧
    (∀ (f : ItemFn) (attr_args : List NestedMeta)
      (iter : List (RustPath × Option Lit)),
      attr_args_parsed attr_args = [] →
      iter.Perm (attr_args_parsed attr_args) →
      validIdent (toCamelCase f.sig.ident ++ "Error") = true →
      ∃ out, errors (Item.fn f) iter = some out ∧ out.enumDef.variants = []) := by
  refine ⟨fun _ _ => rfl, ?_, ?_⟩
  · intro f iter
    show parse_fn f iter = none ↔ _
    unfold parse_fn
    cases hA : format_ident (toCamelCase f.sig.ident ++ "Error") with
    | none =>
      have hv := format_ident_eq_none.mp hA
      exact ⟨fun _ => Or.inl hv, fun _ => rfl⟩
    | some eid =>
      have hv := (format_ident_eq_some.mp hA).1
      cases hM : mapOptionAll (fun e => format_ident (variant_name e)) iter with
      | none =>
        constructor
        · intro _
          obtain ⟨e, he, hge⟩ := mapOptionAll_eq_none.mp hM
          exact Or.inr ⟨e, he, format_ident_eq_none.mp hge⟩
        · intro _
          rfl
      | some names =>
        constructor
        · intro hcontra
          exact Option.noConfusion hcontra
        · rintro (hbad | ⟨e, he, hbad⟩)
          · rw [hv] at hbad
            exact Bool.noConfusion hbad
          · have hnone : mapOptionAll (fun e => format_ident (variant_name e)) iter = none :=
              mapOptionAll_eq_none.mpr ⟨e, he, format_ident_eq_none.mpr hbad⟩
            rw [hnone] at hM
            exact Option.noConfusion hM
  · intro f attr_args iter hempty hperm hA
    have hiter : iter = [] := by
      rw [hempty] at hperm
      exact hperm.eq_nil
    subst hiter
    have hfmt : format_ident (toCamelCase f.sig.ident ++ "Error") =
        some (toCamelCase f.sig.ident ++ "Error") := by
      unfold format_ident
      rw [if_pos hA]
    show ∃ out, parse_fn f [] = some out ∧ out.enumDef.variants = []
    unfold parse_fn
    rw [hfmt]
    exact ⟨_, rfl, rfl⟩

/-- C9 witness: a fully-dropped argument list on the doc example's function
still expands, to a zero-variant enum. -/
theorem c9_witness :
    ∃ out, errors (Item.fn sampleFn) [] = some out ∧ out.enumDef.variants = [] :=
  c9_amended.2.2 sampleFn [NestedMeta.lit (Lit.int 3)] [] (by decide) (by decide)
    (by decide)

end ErroRs
